import Mathlib

/-!
# Verification of the ATRIUM XML translator core

Shallow embedding of the text-redistribution, translation-boundary and
XML-rewriting logic of the repository (src/utils.py, src/processors/translator.py),
together with proofs of the specified properties.

Strings are modelled by Lean `String`; the word-level operations
(`str.split()`, `str.strip()`, `" ".join(...)`) are re-implemented over the
underlying character lists.  `Char.isWhitespace` stands for Python's notion of
whitespace (the ASCII subset; the difference is immaterial to the properties
proved here).
-/

/-- The whitespace test used throughout (Python's `str.split()` / `str.strip()`
split class, restricted to ASCII whitespace). -/
def isWs (c : Char) : Bool := c.isWhitespace

/-- Characters of Python `s.split()` (split on runs of whitespace, dropping
empty fields).  A whitespace character contributes nothing; a non-whitespace
character either starts a fresh word (at the end, or before whitespace) or is
prepended to the word the rest of the input starts with.
`wsplitChars_cons_notWs` below recovers the usual maximal-run reading. -/
def wsplitChars : List Char → List (List Char)
  | [] => []
  | c :: cs =>
    if isWs c then wsplitChars cs
    else
      match cs, wsplitChars cs with
      | [], _ => [[c]]
      | d :: _, rest =>
        if isWs d then [c] :: rest
        else
          match rest with
          | [] => [[c]]
          | w :: ws => (c :: w) :: ws

/-- Python `s.split()`: whitespace-separated words of `s`. -/
def pysplit (s : String) : List String :=
  (wsplitChars s.toList).map (fun l => String.mk l)

/-- Python `" ".join(ws)` over character lists. -/
def joinChars : List (List Char) → List Char
  | [] => []
  | [w] => w
  | w :: ws => w ++ ' ' :: joinChars ws

/-- Python `" ".join(ws)`. -/
def joinWords (ws : List String) : String :=
  String.mk (joinChars (ws.map String.toList))

/-- Python `s.strip()` over character lists: drop leading and trailing
whitespace. -/
def pystripChars (l : List Char) : List Char :=
  ((l.dropWhile isWs).reverse.dropWhile isWs).reverse

/-- Python `s.strip()`. -/
def pystrip (s : String) : String :=
  String.mk (pystripChars s.toList)

/-!
## ALTO String elements and the per-line redistribution
(src/utils.py, `process_alto_xml`, lines 104-141)

A `String` element of an ALTO `TextLine` is modelled by its attribute list
(name-value pairs in document order).  `lxml`'s `elem.get(k)` is `getAttr`;
`elem.set(k, v)` is `setAttr` (replace in place if the key exists, else append).
-/

/-- An ALTO `String` element: its attributes in document order. -/
structure SElem where
  attrs : List (String × String)
deriving DecidableEq, Repr

/-- `elem.get(k)`: value of attribute `k`, if present. -/
def getAttr (attrs : List (String × String)) (k : String) : Option String :=
  (attrs.find? (fun p => p.1 == k)).map (fun p => p.2)

/-- `elem.set(k, v)`: replace the value of `k` in place if present, else
append the pair at the end (lxml semantics). -/
def setAttr : List (String × String) → String → String → List (String × String)
  | [], k, v => [(k, v)]
  | (k', v') :: rest, k, v =>
    if k' = k then (k, v) :: rest else (k', v') :: setAttr rest k v

/-- `s.get('CONTENT')` is truthy: the attribute is present and non-empty
(Python truthiness of the returned string, `None` being falsy). -/
def contentTruthy (s : SElem) : Bool :=
  match getAttr s.attrs "CONTENT" with
  | none => false
  | some c => c ≠ ""

/-- The comprehension of line 116:
`[s.get('CONTENT', '') for s in strings if s.get('CONTENT')]`
(for an element passing the truthiness filter, `s.get('CONTENT', '')` is the
attribute's value). -/
def contentsOf (strings : List SElem) : List String :=
  strings.filterMap (fun s => if contentTruthy s then getAttr s.attrs "CONTENT" else none)

/-- Line 116: `" ".join([s.get('CONTENT', '') for s in strings if s.get('CONTENT')]).strip()`. -/
def lineText (strings : List SElem) : String :=
  pystrip (joinWords (contentsOf strings))

/-- Lines 131-132 and 136: the word counts assigned to the `n` String
elements: element `i` receives `w / n` words plus one remainder word when
`i < w % n`. -/
def countsOf (w n : Nat) : List Nat :=
  (List.range n).map (fun i => w / n + if i < w % n then 1 else 0)

/-- Lines 134-138: consume `ws` left to right, slice by slice, taking
`c` words for each prescribed count `c` (the `word_idx` cursor of the source
loop is the cumulative drop). -/
def seqSlices (ws : List String) : List Nat → List (List String)
  | [] => []
  | c :: cs => ws.take c :: seqSlices (ws.drop c) cs

/-- Lines 128-138: distribute the translated words `ws` over `n` String
elements, left-biased. -/
def distributeWords (ws : List String) (n : Nat) : List (List String) :=
  seqSlices ws (countsOf ws.length n)

/-- Line 141: `string_elem.set('CONTENT', " ".join(assigned_words))`. -/
def setContent (s : SElem) (ws : List String) : SElem :=
  ⟨setAttr s.attrs "CONTENT" (joinWords ws)⟩

/-- Lines 111-141, one `TextLine`: skip the line when it has no `String`
children or reconstructs to blank text; otherwise translate the joined line
text with `f` and distribute the translated words back into the elements'
`CONTENT` attributes. -/
def processLine (f : String → String) (strings : List SElem) : List SElem :=
  if strings = [] then strings
  else
    let lt := lineText strings
    if lt = "" then strings
    else
      List.zipWith setContent strings (distributeWords (pysplit (f lt)) strings.length)

/-- The translation call a line provokes, if any (line 120 is reached only
past the two `continue` guards of lines 112-118). -/
def lineCall (strings : List SElem) : Option String :=
  if strings = [] then none
  else
    let lt := lineText strings
    if lt = "" then none else some lt

/-- Lines 98-141, whole document (pages of lines of `String` elements):
the rewritten document together with the sequence of texts submitted to
`translator.translate`, in traversal order. -/
def process_alto_xml (f : String → String) (pages : List (List (List SElem))) :
    List (List (List SElem)) × List String :=
  (pages.map (fun lines => lines.map (processLine f)),
   (pages.map (fun lines => lines.filterMap lineCall)).flatten)

/-- The sequence of texts submitted to the translator by `process_alto_xml`. -/
def altoCalls (pages : List (List (List SElem))) : List String :=
  (process_alto_xml (fun t => t) pages).2

/-!
## The translation boundary
(src/processors/translator.py, `LindatTranslator.translate` / `_chunk_text`)

The HTTP transport is the abstract collaborator `post`: for each submitted
chunk it yields either a response (status code, reason phrase, body) or a
raised exception (message).  `translate` runs in `Except String`, the error
case modelling an exception escaping the method.
-/

/-- Outcome of one `requests.post` call: an HTTP response or a raised
exception. -/
inductive PostResult where
  | resp (status : Nat) (reason : String) (body : String)
  | exn (msg : String)
deriving DecidableEq, Repr

/-- One slicing step of `_chunk_text` per unit of fuel: for non-empty input
emit `text[0:n]` and continue on `text[n:]`.  The fuel argument only makes the
recursion structural; with `n ≥ 1`, every step consumes at least one character,
so fuel initialised to the input length never runs out. -/
def chunkGo (n : Nat) : Nat → List Char → List (List Char)
  | _, [] => []
  | 0, _ :: _ => []
  | fuel + 1, c :: cs => (c :: cs).take n :: chunkGo n fuel ((c :: cs).drop n)

/-- `_chunk_text` over lists: `[text[i:i+n] for i in range(0, len(text), n)]`
(the source always uses the default `chunk_size=5000`; `n = 0` raises in
Python and is never exercised, modelled as no chunks). -/
def chunkList (n : Nat) (l : List Char) : List (List Char) :=
  if n = 0 then [] else chunkGo n l.length l

/-- `LindatTranslator._chunk_text(text)` with the default chunk size 5000. -/
def chunk_text (text : String) : List String :=
  (chunkList 5000 text.toList).map (fun l => String.mk l)

/-- Translation of one chunk (lines 57-75): a 200 response contributes its
stripped body, any other status contributes a `[Translation Failed: ...]`
sentinel, and a transport exception propagates. -/
def translateChunk (post : String → PostResult) (c : String) : Except String String :=
  match post c with
  | .resp 200 _ body => .ok (pystrip body)
  | .resp status reason _ =>
      .ok ("[Translation Failed: " ++ toString status ++ " - " ++ reason ++ "]")
  | .exn m => .error m

/-- `LindatTranslator.translate(text, src_lang, tgt_lang)` (lines 30-77):
identity when the languages coincide; a `[ERROR: Model ...]` sentinel when the
`src-tgt` model is not in the supported list; otherwise the newline-join of the
per-chunk results. -/
def LindatTranslator.translate (models : List String) (post : String → PostResult)
    (text src tgt : String) : Except String String :=
  if src = tgt then .ok text
  else
    let model := src ++ "-" ++ tgt
    if model ∉ models then .ok ("[ERROR: Model " ++ model ++ " not supported]")
    else do
      let parts ← (chunk_text text).mapM (translateChunk post)
      return String.intercalate "\n" parts

/-!
## AMCR processing
(src/utils.py, `process_amcr_xml`, lines 32-82)

The document is the list of its elements in document order; an element has an
attribute list and optional inner text.  The XPath engine is the abstract
collaborator `eval`: for an expression it yields the indices of the matched
elements, or `none` for an `XPathEvalError` (caught at line 66, line-local
skip with a warning).  The translator is an abstract total function `f`.
-/

/-- A generic XML element: attributes and optional inner text
(`elem.text`, `None` when absent). -/
structure AElem where
  attrs : List (String × String)
  text : Option String
deriving DecidableEq, Repr

/-- Lines 56-59 for one matched element: when `original_text` is truthy and
`original_text.strip()` is truthy, set `elem.text` to the translation;
otherwise leave the element alone.  An index outside the document matches
nothing and is a no-op. -/
def translateAt (f : String → String) (doc : List AElem) (i : Nat) : List AElem :=
  match doc[i]? with
  | none => doc
  | some e =>
    match e.text with
    | none => doc
    | some t =>
      if t ≠ "" ∧ pystrip t ≠ "" then
        doc.set i { e with text := some (f t) }
      else doc

/-- Lines 53-67, one XPath expression: an evaluation error skips the
expression (warning only); otherwise each matched element is translated in
turn. -/
def amcrApplyXpath (eval : String → Option (List Nat)) (f : String → String)
    (doc : List AElem) (xp : String) : List AElem :=
  match eval xp with
  | none => doc
  | some idxs => idxs.foldl (translateAt f) doc

/-- Lines 52-67, the expression loop of `process_amcr_xml`: fold the
expressions over the document; the mutated document is what line 78 writes
out. -/
def process_amcr_xml (eval : String → Option (List Nat)) (f : String → String)
    (doc : List AElem) (xpaths : List String) : List AElem :=
  xpaths.foldl (amcrApplyXpath eval f) doc

/-- The text one element visit submits to the translator, if any (the guard
of lines 56-57 read against the element's text at the time of the visit). -/
def amcrCall? (doc : List AElem) (i : Nat) : Option String :=
  match doc[i]? with
  | none => none
  | some e =>
    match e.text with
    | none => none
    | some t => if t ≠ "" ∧ pystrip t ≠ "" then some t else none

/-- Lines 56-59 for one matched element, with the submitted text recorded:
the same visit as `translateAt`, threading the list of texts handed to
`translator.translate` in traversal order. -/
def translateAtC (f : String → String) (st : List AElem × List String) (i : Nat) :
    List AElem × List String :=
  match st.1[i]? with
  | none => st
  | some e =>
    match e.text with
    | none => st
    | some t =>
      if t ≠ "" ∧ pystrip t ≠ "" then
        (st.1.set i { e with text := some (f t) }, st.2 ++ [t])
      else st

/-- Lines 53-67, one XPath expression, recording submitted texts. -/
def amcrApplyXpathC (eval : String → Option (List Nat)) (f : String → String)
    (st : List AElem × List String) (xp : String) : List AElem × List String :=
  match eval xp with
  | none => st
  | some idxs => idxs.foldl (translateAtC f) st

/-- Lines 52-67 with the sequence of texts submitted to
`translator.translate`: the rewritten document together with the calls, in
traversal order. -/
def process_amcr_xml_calls (eval : String → Option (List Nat)) (f : String → String)
    (doc : List AElem) (xpaths : List String) : List AElem × List String :=
  xpaths.foldl (amcrApplyXpathC eval f) (doc, [])

/-- Substring test (`'amcr' in uri`). -/
def hasInfixChars (needle : List Char) : List Char → Bool
  | [] => needle.isEmpty
  | c :: cs => needle.isPrefixOf (c :: cs) || hasInfixChars needle cs

/-- `'amcr' in uri` for strings. -/
def containsAmcr (uri : String) : Bool :=
  hasInfixChars "amcr".toList uri.toList

/-- Lines 40-50 of `process_amcr_xml`: build the namespace mapping handed to
the XPath engine from the root element's `nsmap` (a prefix-to-URI list in
declaration order, `none` being the default namespace).  Every URI that is
truthy and contains `"amcr"` overwrites the `amcr` binding (last wins); when
none does and a default namespace exists, bind `amcr` to it; otherwise no
binding at all. -/
def buildXpathNs (nsmap : List (Option String × String)) : List (String × String) :=
  let amcrUri := (nsmap.filter (fun p => p.2 ≠ "" && containsAmcr p.2)).getLast?
  match amcrUri with
  | some p => [("amcr", p.2)]
  | none =>
    match (nsmap.find? (fun p => p.1 == none)).map (fun p => p.2) with
    | some u => [("amcr", u)]
    | none => []

/-!
## Box extraction
(src/utils.py, `parse_alto_xml`, lines 257-308)
-/

/-- Value of the digit string (most significant first). -/
def digitsToNat (ds : List Char) : Nat :=
  ds.foldl (fun n c => n * 10 + (c.toNat - 48)) 0

/-- Magnitude of `int(float(s))` for an unsigned decimal literal: the integer
part, truncated; `none` when the characters do not form a decimal literal. -/
def decIntPart (cs : List Char) : Option Nat :=
  let ip := cs.takeWhile Char.isDigit
  match cs.dropWhile Char.isDigit with
  | [] => if ip.isEmpty then none else some (digitsToNat ip)
  | '.' :: frac =>
      if frac.all Char.isDigit && !(ip.isEmpty && frac.isEmpty) then some (digitsToNat ip)
      else none
  | _ => none

/-- Python `int(float(s))`, modelled for decimal literals (optional
surrounding whitespace, optional sign, digits with an optional fractional
part, truncation toward zero); exponent and special-value forms are outside
the model and all such inputs in the repository's documents are plain
decimals.  `none` models the `ValueError` the source catches. -/
def pyIntFloat (s : String) : Option Int :=
  match pystripChars s.toList with
  | '-' :: rest => (decIntPart rest).map (fun n => -(n : Int))
  | '+' :: rest => (decIntPart rest).map (fun n => (n : Int))
  | rest => (decIntPart rest).map (fun n => (n : Int))

/-- A raw XML element as `parse_alto_xml` sees it: local tag name (after the
namespace split of line 289) and attribute list. -/
structure RawElem where
  tag : String
  attrs : List (String × String)
deriving DecidableEq, Repr

/-- `child.attrib.get(k)`. -/
def rawGet (e : RawElem) (k : String) : Option String :=
  getAttr e.attrs k

/-- `int(float(child.attrib.get(k)))` of lines 295-298: `none` when the
attribute is missing (`TypeError` on `float(None)`) or not numeric
(`ValueError`), both caught at line 299. -/
def numAttr (e : RawElem) (k : String) : Option Int :=
  (rawGet e k).bind pyIntFloat

/-- Lines 288-303, one child of a `TextLine`: the (word, box) pair extracted
from a `String` element, or `none` when the child is skipped — wrong tag,
missing or empty `CONTENT`, or any of the four geometry attributes missing or
non-numeric. -/
def extractString (e : RawElem) : Option (String × List Int) :=
  if e.tag ≠ "String" then none
  else
    match rawGet e "CONTENT" with
    | none => none
    | some c =>
      if c = "" then none
      else
        match numAttr e "HPOS", numAttr e "VPOS", numAttr e "WIDTH", numAttr e "HEIGHT" with
        | some x, some y, some w, some h => some (c, [x, y, x + w, y + h])
        | _, _, _, _ => none

/-- The parsed tree as `parse_alto_xml` consumes it: the first `Page` element
(if any) and, for each `TextLine` in document order, its direct children. -/
structure AltoDoc where
  page : Option RawElem
  lines : List (List RawElem)
deriving Repr

/-- `int(float(page.attrib.get(k, 0)))` of lines 279-280 (default integer 0
when the attribute is absent). -/
def pageDim (page : RawElem) (k : String) : Option Int :=
  pyIntFloat ((rawGet page k).getD "0")

/-- `parse_alto_xml` (lines 257-308) on the parsed input: `none` models an
XML parse failure (caught at line 265); a missing `Page` returns the empty
result (line 277); a non-numeric page dimension raises `ValueError` inside
the extraction block, caught at line 306 with the empty result; otherwise the
words and boxes of every non-skipped `String`, in document order, plus the
page dimensions. -/
def parse_alto_xml : Option AltoDoc → List String × List (List Int) × (Int × Int)
  | none => ([], [], (0, 0))
  | some doc =>
    match doc.page with
    | none => ([], [], (0, 0))
    | some page =>
      match pageDim page "WIDTH", pageDim page "HEIGHT" with
      | some w, some h =>
        let pairs := (doc.lines.map (fun l => l.filterMap extractString)).flatten
        (pairs.map (fun p => p.1), pairs.map (fun p => p.2), (w, h))
      | _, _ => ([], [], (0, 0))

/-!
## Lemmas about the word distribution
-/

theorem seqSlices_length (ws : List String) (cs : List Nat) :
    (seqSlices ws cs).length = cs.length := by
  induction cs generalizing ws with
  | nil => rfl
  | cons c cs ih => simp [seqSlices, ih]

theorem seqSlices_flatten (ws : List String) (cs : List Nat) :
    (seqSlices ws cs).flatten = ws.take cs.sum := by
  induction cs generalizing ws with
  | nil => simp [seqSlices]
  | cons c cs ih =>
    simp only [seqSlices, List.flatten_cons, ih, List.sum_cons, List.take_add]

theorem seqSlices_getD_length (ws : List String) (cs : List Nat)
    (hsum : cs.sum ≤ ws.length) (i : Nat) (hi : i < cs.length) :
    ((seqSlices ws cs).getD i []).length = cs.getD i 0 := by
  induction cs generalizing ws i with
  | nil => simp at hi
  | cons c cs ih =>
    simp only [List.sum_cons] at hsum
    cases i with
    | zero =>
      simp only [seqSlices, List.getD_cons_zero, List.length_take]
      omega
    | succ j =>
      simp only [seqSlices, List.getD_cons_succ]
      have hj : j < cs.length := by simpa using hi
      have : cs.sum ≤ (ws.drop c).length := by
        simp only [List.length_drop]; omega
      exact ih (ws.drop c) this j hj

theorem range_map_add_ite_sum (q r n : Nat) :
    (((List.range n).map (fun i => q + if i < r then 1 else 0)).sum) = n * q + min r n := by
  induction n with
  | zero => simp
  | succ n ih =>
    rw [List.range_succ, List.map_append, List.sum_append]
    simp only [List.map_cons, List.map_nil, List.sum_cons, List.sum_nil, ih]
    by_cases h : n < r
    · have h1 : min r n = n := by omega
      have h2 : min r (n + 1) = n + 1 := by omega
      rw [if_pos h, h1, h2, Nat.succ_mul]
      omega
    · have h1 : min r n = r := by omega
      have h2 : min r (n + 1) = r := by omega
      rw [if_neg h, h1, h2, Nat.succ_mul]
      omega

theorem countsOf_length (w n : Nat) : (countsOf w n).length = n := by
  simp [countsOf]

theorem countsOf_sum (w n : Nat) (hn : 1 ≤ n) : (countsOf w n).sum = w := by
  have h := range_map_add_ite_sum (w / n) (w % n) n
  have hlt : w % n < n := Nat.mod_lt _ (by omega)
  have hdm := Nat.div_add_mod w n
  simp only [countsOf, h]
  omega

theorem countsOf_getD (w n i : Nat) (hi : i < n) :
    (countsOf w n).getD i 0 = w / n + if i < w % n then 1 else 0 := by
  simp only [countsOf]
  rw [List.getD_eq_getElem?_getD, List.getElem?_map, List.getElem?_range hi]
  rfl

theorem distributeWords_length (ws : List String) (n : Nat) :
    (distributeWords ws n).length = n := by
  simp [distributeWords, seqSlices_length, countsOf_length]

theorem distributeWords_flatten (ws : List String) (n : Nat) (hn : 1 ≤ n) :
    (distributeWords ws n).flatten = ws := by
  rw [distributeWords, seqSlices_flatten, countsOf_sum _ _ hn, List.take_length]

theorem distributeWords_getD_length (ws : List String) (n i : Nat)
    (hn : 1 ≤ n) (hi : i < n) :
    ((distributeWords ws n).getD i []).length
      = ws.length / n + if i < ws.length % n then 1 else 0 := by
  rw [distributeWords,
      seqSlices_getD_length _ _ (by rw [countsOf_sum _ _ hn]) i (by rwa [countsOf_length]),
      countsOf_getD _ _ _ hi]

/-!
## Lemmas about attribute access
-/

theorem getAttr_setAttr_self (attrs : List (String × String)) (k v : String) :
    getAttr (setAttr attrs k v) k = some v := by
  induction attrs with
  | nil => simp [setAttr, getAttr]
  | cons p rest ih =>
    obtain ⟨k', v'⟩ := p
    by_cases h : k' = k
    · simp [setAttr, getAttr, h]
    · simpa [setAttr, getAttr, List.find?_cons, h] using ih

theorem getAttr_setAttr_ne (attrs : List (String × String)) (k v k' : String)
    (h : k' ≠ k) :
    getAttr (setAttr attrs k v) k' = getAttr attrs k' := by
  induction attrs with
  | nil => simp [setAttr, getAttr, List.find?_cons, beq_iff_eq, Ne.symm h]
  | cons p rest ih =>
    obtain ⟨k₀, v₀⟩ := p
    by_cases h0 : k₀ = k
    · subst h0
      simp [setAttr, getAttr, List.find?_cons, beq_iff_eq, Ne.symm h]
    · by_cases h1 : k₀ = k'
      · subst h1
        simp [setAttr, getAttr, List.find?_cons, beq_iff_eq, h0]
      · have hb : (k₀ == k') = false := beq_eq_false_iff_ne.mpr h1
        simp only [setAttr, if_neg h0, getAttr, List.find?_cons, hb]
        exact ih

theorem setAttr_eq_self (attrs : List (String × String)) (k v : String)
    (h : getAttr attrs k = some v) :
    setAttr attrs k v = attrs := by
  induction attrs with
  | nil => simp [getAttr] at h
  | cons p rest ih =>
    obtain ⟨k₀, v₀⟩ := p
    by_cases h0 : k₀ = k
    · subst h0
      have hb : (k₀ == k₀) = true := beq_self_eq_true k₀
      simp only [getAttr, List.find?_cons, hb, Option.map_some] at h
      injection h with h
      simp only at h
      simp only [setAttr, if_pos rfl]
      rw [h]
      simp
    · have hr : getAttr rest k = some v := by
        simpa [getAttr, List.find?_cons, beq_iff_eq, h0] using h
      simp [setAttr, h0, ih hr]

/-!
## Lemmas about whitespace splitting, joining and stripping
-/

/-- The non-whitespace predicate used by `wsplitChars`. -/
def notWs (c : Char) : Bool := !isWs c

theorem wsplitChars_nil : wsplitChars [] = [] := by
  simp [wsplitChars]

theorem wsplitChars_cons_ws {c : Char} (h : isWs c) (l : List Char) :
    wsplitChars (c :: l) = wsplitChars l := by
  rw [wsplitChars.eq_def]
  dsimp only
  rw [if_pos h]

/-- The structural definition of `wsplitChars` computes the usual maximal-run
splitting: a word is the maximal non-whitespace prefix, and splitting
continues past it. -/
theorem wsplitChars_cons_notWs {c : Char} (h : ¬ isWs c) (l : List Char) :
    wsplitChars (c :: l)
      = (c :: l.takeWhile notWs) :: wsplitChars (l.dropWhile notWs) := by
  induction l generalizing c with
  | nil =>
    rw [wsplitChars.eq_def]
    dsimp only
    rw [if_neg h]
    rfl
  | cons d ds ih =>
    rw [wsplitChars.eq_def]
    dsimp only
    rw [if_neg h]
    by_cases hd : isWs d
    · have hnd : ¬ notWs d = true := by simp [notWs, hd]
      rw [if_pos hd, List.takeWhile_cons_of_neg hnd, List.dropWhile_cons_of_neg hnd]
    · have hnd : notWs d = true := by simp [notWs, hd]
      rw [if_neg hd, ih hd, List.takeWhile_cons_of_pos hnd,
          List.dropWhile_cons_of_pos hnd]

theorem wsplitChars_all_ws (l : List Char) (h : ∀ c ∈ l, isWs c) :
    wsplitChars l = [] := by
  induction l with
  | nil => exact wsplitChars_nil
  | cons c cs ih =>
    rw [wsplitChars_cons_ws (h c (List.mem_cons_self c cs))]
    exact ih (fun d hd => h d (List.mem_cons_of_mem _ hd))

theorem wsplitChars_dropWhile_ws (l : List Char) :
    wsplitChars (l.dropWhile isWs) = wsplitChars l := by
  induction l with
  | nil => rfl
  | cons c cs ih =>
    by_cases h : isWs c
    · rw [List.dropWhile_cons_of_pos h, ih, wsplitChars_cons_ws h]
    · rw [List.dropWhile_cons_of_neg h]

theorem wsplitChars_append_ws : ∀ (m sfx : List Char), (∀ c ∈ sfx, isWs c) →
    wsplitChars (m ++ sfx) = wsplitChars m
  | [], sfx, hsfx => by
    rw [List.nil_append, wsplitChars_nil, wsplitChars_all_ws sfx hsfx]
  | c :: cs, sfx, hsfx => by
    by_cases h : isWs c
    · rw [List.cons_append, wsplitChars_cons_ws h, wsplitChars_cons_ws h]
      exact wsplitChars_append_ws cs sfx hsfx
    · have htwnil : sfx.takeWhile notWs = [] := by
        cases sfx with
        | nil => rfl
        | cons d ds =>
          have hd : ¬ notWs d = true := by
            simp [notWs, hsfx d (List.mem_cons_self d ds)]
          exact List.takeWhile_cons_of_neg hd
      have hdwself : sfx.dropWhile notWs = sfx := by
        cases sfx with
        | nil => rfl
        | cons d ds =>
          have hd : ¬ notWs d = true := by
            simp [notWs, hsfx d (List.mem_cons_self d ds)]
          exact List.dropWhile_cons_of_neg hd
      have htwall : ∀ a ∈ cs.takeWhile notWs, notWs a :=
        fun a ha => List.mem_takeWhile_imp ha
      rw [List.cons_append, wsplitChars_cons_notWs h, wsplitChars_cons_notWs h]
      cases hdw : cs.dropWhile notWs with
      | nil =>
        have hcs : cs.takeWhile notWs = cs := by
          have hh := List.takeWhile_append_dropWhile notWs cs
          rwa [hdw, List.append_nil] at hh
        have h1 : (cs ++ sfx).takeWhile notWs = cs := by
          calc (cs ++ sfx).takeWhile notWs
              = cs ++ sfx.takeWhile notWs := by
                refine List.takeWhile_append_of_pos ?_
                intro a ha
                exact htwall a (by rwa [hcs])
            _ = cs := by rw [htwnil, List.append_nil]
        have h2 : (cs ++ sfx).dropWhile notWs = sfx := by
          refine Eq.trans (List.dropWhile_append_of_pos ?_) hdwself
          intro a ha
          exact htwall a (by rwa [hcs])
        simp only [h1, h2, hcs, hdw, wsplitChars_all_ws sfx hsfx, wsplitChars_nil]
      | cons d ds =>
        have h3 := List.head?_dropWhile_not notWs cs
        rw [hdw] at h3
        simp only [List.head?_cons] at h3
        have hdneg : ¬ notWs d = true := by simp [h3]
        have hsplit : cs = cs.takeWhile notWs ++ (d :: ds) := by
          conv_lhs => rw [← List.takeWhile_append_dropWhile notWs cs, hdw]
        have h1 : (cs ++ sfx).takeWhile notWs = cs.takeWhile notWs := by
          conv_lhs => rw [hsplit]
          rw [List.append_assoc,
              List.takeWhile_append_of_pos htwall,
              List.cons_append,
              List.takeWhile_cons_of_neg hdneg,
              List.append_nil]
        have h2 : (cs ++ sfx).dropWhile notWs = (d :: ds) ++ sfx := by
          conv_lhs => rw [hsplit]
          rw [List.append_assoc,
              List.dropWhile_append_of_pos htwall,
              List.cons_append,
              List.dropWhile_cons_of_neg hdneg]
        have hrec : wsplitChars ((d :: ds) ++ sfx) = wsplitChars (d :: ds) :=
          wsplitChars_append_ws (d :: ds) sfx hsfx
        simp only [h1, h2, hdw, hrec]
  termination_by m _ _ => m.length
  decreasing_by
    all_goals
      first
      | (simp only [List.length_cons]; omega)
      | (have hle := (List.dropWhile_sublist (l := cs) notWs).length_le
         rw [hdw] at hle
         simp only [List.length_cons] at hle ⊢
         omega)

theorem wsplitChars_pystripChars (l : List Char) :
    wsplitChars (pystripChars l) = wsplitChars l := by
  unfold pystripChars
  set m := l.dropWhile isWs with hm
  have hdecomp : m = ((m.reverse.dropWhile isWs).reverse) ++ ((m.reverse.takeWhile isWs).reverse) := by
    conv_lhs => rw [← List.reverse_reverse m,
      ← List.takeWhile_append_dropWhile isWs m.reverse]
    rw [List.reverse_append]
  have hsfx : ∀ c ∈ (m.reverse.takeWhile isWs).reverse, isWs c := by
    intro c hc
    rw [List.mem_reverse] at hc
    exact List.mem_takeWhile_imp hc
  calc wsplitChars ((m.reverse.dropWhile isWs).reverse)
      = wsplitChars (((m.reverse.dropWhile isWs).reverse) ++ ((m.reverse.takeWhile isWs).reverse)) :=
        (wsplitChars_append_ws _ _ hsfx).symm
    _ = wsplitChars m := by rw [← hdecomp]
    _ = wsplitChars l := wsplitChars_dropWhile_ws l

theorem takeWhile_all_pos {p : Char → Bool} (l : List Char) (h : ∀ a ∈ l, p a) :
    l.takeWhile p = l := by
  induction l with
  | nil => rfl
  | cons c cs ih =>
    rw [List.takeWhile_cons_of_pos (h c (List.mem_cons_self c cs))]
    rw [ih (fun a ha => h a (List.mem_cons_of_mem _ ha))]

theorem dropWhile_all_pos {p : Char → Bool} (l : List Char) (h : ∀ a ∈ l, p a) :
    l.dropWhile p = [] := by
  induction l with
  | nil => rfl
  | cons c cs ih =>
    rw [List.dropWhile_cons_of_pos (h c (List.mem_cons_self c cs))]
    exact ih (fun a ha => h a (List.mem_cons_of_mem _ ha))

theorem wsplitChars_joinChars : ∀ (ts : List (List Char)),
    (∀ t ∈ ts, t ≠ [] ∧ ∀ c ∈ t, ¬ isWs c) → wsplitChars (joinChars ts) = ts
  | [], _ => wsplitChars_nil
  | [t], h => by
    obtain ⟨hne, hnws⟩ := h t (List.mem_cons_self t [])
    obtain ⟨c, rest, rfl⟩ := List.exists_cons_of_ne_nil hne
    have hall : ∀ a ∈ rest, notWs a := by
      intro a ha
      simp [notWs, hnws a (List.mem_cons_of_mem _ ha)]
    rw [joinChars, wsplitChars_cons_notWs (hnws c (List.mem_cons_self c rest)),
        takeWhile_all_pos rest hall, dropWhile_all_pos rest hall,
        wsplitChars_nil]
  | t :: t' :: ts, h => by
    obtain ⟨hne, hnws⟩ := h t (List.mem_cons_self t (t' :: ts))
    obtain ⟨c, rest, rfl⟩ := List.exists_cons_of_ne_nil hne
    have hall : ∀ a ∈ rest, notWs a := by
      intro a ha
      simp [notWs, hnws a (List.mem_cons_of_mem _ ha)]
    have hj : joinChars ((c :: rest) :: t' :: ts)
        = c :: (rest ++ ' ' :: joinChars (t' :: ts)) := rfl
    have hsp : ¬ notWs ' ' = true := by simp [notWs, isWs]
    rw [hj, wsplitChars_cons_notWs (hnws c (List.mem_cons_self c rest)),
        List.takeWhile_append_of_pos hall,
        List.takeWhile_cons_of_neg hsp,
        List.append_nil,
        List.dropWhile_append_of_pos hall,
        List.dropWhile_cons_of_neg hsp,
        wsplitChars_cons_ws (by simp [isWs]),
        wsplitChars_joinChars (t' :: ts) (fun u hu => h u (List.mem_cons_of_mem _ hu))]

/-!
## String-level corollaries
-/

theorem toList_mk (l : List Char) : (String.mk l).toList = l := rfl

theorem mk_toList (s : String) : String.mk s.toList = s := rfl

theorem toList_ne_nil_of_ne_empty {s : String} (h : s ≠ "") : s.toList ≠ [] := by
  intro hl
  exact h (by
    have : String.mk s.toList = String.mk [] := by rw [hl]
    simpa [mk_toList] using this)

theorem pysplit_empty : pysplit "" = [] := by
  unfold pysplit
  rw [show ("" : String).toList = [] from rfl, wsplitChars_nil]
  rfl

theorem pysplit_pystrip (s : String) : pysplit (pystrip s) = pysplit s := by
  unfold pysplit pystrip
  rw [toList_mk, wsplitChars_pystripChars]

theorem pysplit_joinWords (ts : List String)
    (h : ∀ t ∈ ts, t ≠ "" ∧ ∀ c ∈ t.toList, ¬ isWs c) :
    pysplit (joinWords ts) = ts := by
  unfold pysplit joinWords
  rw [toList_mk, wsplitChars_joinChars (ts.map String.toList) ?_]
  · rw [List.map_map]
    have hcomp : ((fun l => String.mk l) ∘ String.toList) = id :=
      funext fun s => mk_toList s
    rw [hcomp, List.map_id]
  · intro t ht
    rw [List.mem_map] at ht
    obtain ⟨u, hu, rfl⟩ := ht
    obtain ⟨hne, hnws⟩ := h u hu
    exact ⟨toList_ne_nil_of_ne_empty hne, hnws⟩

theorem joinWords_singleton (w : String) : joinWords [w] = w := by
  unfold joinWords
  rw [List.map_cons, List.map_nil, joinChars, mk_toList]

theorem joinWords_nil : joinWords [] = "" := rfl

/-!
## Lemmas about `processLine`
-/

theorem countsOf_self (n : Nat) : countsOf n n = List.replicate n 1 := by
  cases n with
  | zero => rfl
  | succ m =>
    unfold countsOf
    have hd : (m + 1) / (m + 1) = 1 := Nat.div_self (Nat.succ_pos m)
    have hm : (m + 1) % (m + 1) = 0 := Nat.mod_self (m + 1)
    rw [hd, hm]
    have : (fun i => 1 + if i < 0 then 1 else 0) = (fun _ : Nat => 1) := by
      funext i
      simp
    rw [this]
    rw [show (fun _ : Nat => 1) = Function.const Nat 1 from rfl,
        List.map_const, List.length_range]

theorem seqSlices_replicate_one (ws : List String) :
    seqSlices ws (List.replicate ws.length 1) = ws.map (fun w => [w]) := by
  induction ws with
  | nil => rfl
  | cons w rest ih =>
    simp only [List.length_cons, List.replicate_succ, seqSlices, List.take_succ_cons,
      List.take_zero, List.drop_succ_cons, List.drop_zero, List.map_cons]
    exact congrArg _ ih

theorem distributeWords_self (ws : List String) :
    distributeWords ws ws.length = ws.map (fun w => [w]) := by
  rw [distributeWords, countsOf_self, seqSlices_replicate_one]

theorem contentsOf_all (strs : List SElem)
    (h : ∀ s ∈ strs, ∃ w, getAttr s.attrs "CONTENT" = some w ∧ w ≠ "") :
    contentsOf strs = strs.map (fun s => (getAttr s.attrs "CONTENT").getD "") := by
  induction strs with
  | nil => rfl
  | cons s rest ih =>
    obtain ⟨w, hw, hne⟩ := h s (List.mem_cons_self s rest)
    have ht : contentTruthy s = true := by
      simp [contentTruthy, hw, hne]
    simp only [contentsOf, List.filterMap_cons, ht, if_pos, List.map_cons, hw]
    rw [← contentsOf]
    rw [ih (fun u hu => h u (List.mem_cons_of_mem _ hu))]
    rfl

theorem zipWith_map_self (g : SElem → List String) (strs : List SElem)
    (h : ∀ s ∈ strs, setContent s (g s) = s) :
    List.zipWith setContent strs (strs.map g) = strs := by
  induction strs with
  | nil => rfl
  | cons s rest ih =>
    simp only [List.map_cons, List.zipWith_cons_cons,
      h s (List.mem_cons_self s rest)]
    exact congrArg _ (ih (fun u hu => h u (List.mem_cons_of_mem _ hu)))

theorem processLine_length (f : String → String) (strs : List SElem) :
    (processLine f strs).length = strs.length := by
  unfold processLine
  by_cases h1 : strs = []
  · rw [if_pos h1]
  · rw [if_neg h1]
    by_cases h2 : lineText strs = ""
    · rw [if_pos h2]
    · rw [if_neg h2, List.length_zipWith, distributeWords_length, Nat.min_self]

theorem processLine_getD (f : String → String) (strs : List SElem)
    (h1 : strs ≠ []) (h2 : lineText strs ≠ "") (i : Nat) (hi : i < strs.length) :
    (processLine f strs).getD i ⟨[]⟩
      = setContent (strs.getD i ⟨[]⟩)
          ((distributeWords (pysplit (f (lineText strs))) strs.length).getD i []) := by
  unfold processLine
  rw [if_neg h1, if_neg h2]
  have hn : 1 ≤ strs.length := by
    cases strs with
    | nil => exact absurd rfl h1
    | cons a l => simp
  have hzlen : (List.zipWith setContent strs
      (distributeWords (pysplit (f (lineText strs))) strs.length)).length = strs.length := by
    rw [List.length_zipWith, distributeWords_length, Nat.min_self]
  have hi2 : i < (distributeWords (pysplit (f (lineText strs))) strs.length).length := by
    rwa [distributeWords_length]
  rw [List.getD_eq_getElem?_getD, List.getElem?_eq_getElem (by omega : i < _),
      Option.getD_some, List.getElem_zipWith,
      List.getD_eq_getElem?_getD, List.getElem?_eq_getElem hi, Option.getD_some,
      List.getD_eq_getElem?_getD, List.getElem?_eq_getElem hi2, Option.getD_some]

theorem processLine_id_singleTokens (strs : List SElem)
    (h : ∀ s ∈ strs, ∃ w, getAttr s.attrs "CONTENT" = some w ∧ w ≠ ""
          ∧ ∀ c ∈ w.toList, ¬ isWs c) :
    processLine (fun t => t) strs = strs := by
  unfold processLine
  by_cases h1 : strs = []
  · rw [if_pos h1]
  · rw [if_neg h1]
    have hco : contentsOf strs = strs.map (fun s => (getAttr s.attrs "CONTENT").getD "") := by
      refine contentsOf_all strs ?_
      intro s hs
      obtain ⟨w, hw, hne, _⟩ := h s hs
      exact ⟨w, hw, hne⟩
    have htok : ∀ t ∈ contentsOf strs, t ≠ "" ∧ ∀ c ∈ t.toList, ¬ isWs c := by
      rw [hco]
      intro t ht
      rw [List.mem_map] at ht
      obtain ⟨s, hs, rfl⟩ := ht
      obtain ⟨w, hw, hne, hws⟩ := h s hs
      rw [hw, Option.getD_some]
      exact ⟨hne, hws⟩
    have hsplitlt : pysplit (lineText strs) = contentsOf strs := by
      rw [lineText, pysplit_pystrip, pysplit_joinWords _ htok]
    by_cases h2 : lineText strs = ""
    · rw [if_pos h2]
    · rw [if_neg h2]
      have hlen : (pysplit (lineText strs)).length = strs.length := by
        rw [hsplitlt, hco, List.length_map]
      rw [show pysplit ((fun t => t) (lineText strs)) = pysplit (lineText strs) from rfl,
          ← hlen, distributeWords_self, hsplitlt, hco, List.map_map]
      refine zipWith_map_self _ strs ?_
      intro s hs
      obtain ⟨w, hw, hne, hws⟩ := h s hs
      show setContent s [(getAttr s.attrs "CONTENT").getD ""] = s
      rw [hw, Option.getD_some, setContent, joinWords_singleton, setAttr_eq_self _ _ _ hw]

/-!
## Lemmas about the AMCR rewrite
-/

theorem set_getElem?_self {α : Type} {l : List α} {i : Nat} {e : α}
    (h : l[i]? = some e) : l.set i e = l := by
  induction l generalizing i with
  | nil => simp at h
  | cons a rest ih =>
    cases i with
    | zero =>
      simp only [List.getElem?_cons_zero, Option.some_inj] at h
      rw [List.set_cons_zero, h]
    | succ j =>
      simp only [List.getElem?_cons_succ] at h
      rw [List.set_cons_succ, ih h]

theorem translateAt_id (doc : List AElem) (i : Nat) :
    translateAt (fun t => t) doc i = doc := by
  unfold translateAt
  cases hget : doc[i]? with
  | none => rfl
  | some e =>
    dsimp only
    cases htext : e.text with
    | none => rfl
    | some t =>
      dsimp only
      by_cases hc : t ≠ "" ∧ pystrip t ≠ ""
      · rw [if_pos hc]
        have he : { e with text := some t } = e := by
          cases e
          simp_all
        rw [he]
        exact set_getElem?_self hget
      · rw [if_neg hc]

theorem foldl_translateAt_id (idxs : List Nat) (doc : List AElem) :
    List.foldl (translateAt (fun t => t)) doc idxs = doc := by
  induction idxs generalizing doc with
  | nil => rfl
  | cons i is ih =>
    rw [List.foldl_cons, translateAt_id]
    exact ih doc

theorem process_amcr_xml_id (eval : String → Option (List Nat)) (doc : List AElem)
    (xpaths : List String) :
    process_amcr_xml eval (fun t => t) doc xpaths = doc := by
  unfold process_amcr_xml
  induction xpaths generalizing doc with
  | nil => rfl
  | cons xp rest ih =>
    rw [List.foldl_cons]
    have hone : amcrApplyXpath eval (fun t => t) doc xp = doc := by
      unfold amcrApplyXpath
      cases eval xp with
      | none => rfl
      | some idxs =>
        dsimp only
        exact foldl_translateAt_id idxs doc
    rw [hone, ih]

theorem translateAt_length (f : String → String) (doc : List AElem) (i : Nat) :
    (translateAt f doc i).length = doc.length := by
  unfold translateAt
  cases hget : doc[i]? with
  | none => rfl
  | some e =>
    dsimp only
    cases htext : e.text with
    | none => rfl
    | some t =>
      dsimp only
      by_cases hc : t ≠ "" ∧ pystrip t ≠ ""
      · rw [if_pos hc, List.length_set]
      · rw [if_neg hc]

theorem translateAt_attrs (f : String → String) (doc : List AElem) (i j : Nat) :
    ((translateAt f doc i).getD j ⟨[], none⟩).attrs = (doc.getD j ⟨[], none⟩).attrs := by
  unfold translateAt
  cases hget : doc[i]? with
  | none => rfl
  | some e =>
    dsimp only
    cases htext : e.text with
    | none => rfl
    | some t =>
      dsimp only
      by_cases hc : t ≠ "" ∧ pystrip t ≠ ""
      · rw [if_pos hc]
        by_cases hij : i = j
        · subst hij
          have hlt : i < doc.length := by
            by_contra hge
            rw [List.getElem?_eq_none (by omega)] at hget
            exact Option.noConfusion hget
          rw [List.getD_eq_getElem?_getD, List.getElem?_set_self hlt,
              List.getD_eq_getElem?_getD, hget]
          rfl
        · rw [List.getD_eq_getElem?_getD, List.getElem?_set_ne hij,
              List.getD_eq_getElem?_getD]
      · rw [if_neg hc]

theorem foldl_translateAt_length (f : String → String) (idxs : List Nat)
    (doc : List AElem) :
    (List.foldl (translateAt f) doc idxs).length = doc.length := by
  induction idxs generalizing doc with
  | nil => rfl
  | cons i is ih =>
    rw [List.foldl_cons, ih, translateAt_length]

theorem foldl_translateAt_attrs (f : String → String) (idxs : List Nat)
    (doc : List AElem) (j : Nat) :
    ((List.foldl (translateAt f) doc idxs).getD j ⟨[], none⟩).attrs
      = (doc.getD j ⟨[], none⟩).attrs := by
  induction idxs generalizing doc with
  | nil => rfl
  | cons i is ih =>
    rw [List.foldl_cons, ih, translateAt_attrs]

theorem amcrApplyXpath_length (eval : String → Option (List Nat))
    (f : String → String) (doc : List AElem) (xp : String) :
    (amcrApplyXpath eval f doc xp).length = doc.length := by
  unfold amcrApplyXpath
  cases eval xp with
  | none => rfl
  | some idxs =>
    dsimp only
    exact foldl_translateAt_length f idxs doc

theorem amcrApplyXpath_attrs (eval : String → Option (List Nat))
    (f : String → String) (doc : List AElem) (xp : String) (j : Nat) :
    ((amcrApplyXpath eval f doc xp).getD j ⟨[], none⟩).attrs
      = (doc.getD j ⟨[], none⟩).attrs := by
  unfold amcrApplyXpath
  cases eval xp with
  | none => rfl
  | some idxs =>
    dsimp only
    exact foldl_translateAt_attrs f idxs doc j

theorem process_amcr_xml_length (eval : String → Option (List Nat))
    (f : String → String) (doc : List AElem) (xpaths : List String) :
    (process_amcr_xml eval f doc xpaths).length = doc.length := by
  unfold process_amcr_xml
  induction xpaths generalizing doc with
  | nil => rfl
  | cons xp rest ih =>
    rw [List.foldl_cons, ih, amcrApplyXpath_length]

theorem process_amcr_xml_attrs (eval : String → Option (List Nat))
    (f : String → String) (doc : List AElem) (xpaths : List String) (j : Nat) :
    ((process_amcr_xml eval f doc xpaths).getD j ⟨[], none⟩).attrs
      = (doc.getD j ⟨[], none⟩).attrs := by
  unfold process_amcr_xml
  induction xpaths generalizing doc with
  | nil => rfl
  | cons xp rest ih =>
    rw [List.foldl_cons, ih, amcrApplyXpath_attrs]

/-!
## Lemmas about chunking and the translate boundary
-/

theorem chunkGo_flatten (n : Nat) (hn : n ≠ 0) (fuel : Nat) :
    ∀ (l : List Char), l.length ≤ fuel → (chunkGo n fuel l).flatten = l := by
  induction fuel with
  | zero =>
    intro l hl
    have : l = [] := List.eq_nil_of_length_eq_zero (by omega)
    subst this
    rfl
  | succ fuel ih =>
    intro l hl
    cases l with
    | nil => rfl
    | cons c cs =>
      rw [chunkGo, List.flatten_cons, ih ((c :: cs).drop n) ?_, List.take_append_drop]
      simp only [List.length_drop, List.length_cons] at hl ⊢
      omega

theorem chunkGo_le (n : Nat) (fuel : Nat) :
    ∀ (l : List Char) (c : List Char), c ∈ chunkGo n fuel l → c.length ≤ n := by
  induction fuel with
  | zero =>
    intro l c hc
    cases l <;> simp [chunkGo] at hc
  | succ fuel ih =>
    intro l c hc
    cases l with
    | nil => simp [chunkGo] at hc
    | cons a as =>
      rw [chunkGo] at hc
      rcases List.mem_cons.mp hc with h | h
      · rw [h, List.length_take]
        omega
      · exact ih ((a :: as).drop n) c h

theorem chunkList_flatten (n : Nat) (hn : n ≠ 0) (l : List Char) :
    (chunkList n l).flatten = l := by
  rw [chunkList, if_neg hn, chunkGo_flatten n hn l.length l (Nat.le_refl _)]

theorem chunkList_le (n : Nat) (l : List Char) (c : List Char)
    (hc : c ∈ chunkList n l) : c.length ≤ n := by
  rw [chunkList] at hc
  by_cases hn : n = 0
  · rw [if_pos hn] at hc
    simp at hc
  · rw [if_neg hn] at hc
    exact chunkGo_le n l.length l c hc

theorem chunkList_short (n : Nat) (l : List Char) (hne : l ≠ [])
    (hlen : l.length ≤ n) : chunkList n l = [l] := by
  have hn : n ≠ 0 := by
    have : l.length ≠ 0 := fun h0 => hne (List.eq_nil_of_length_eq_zero h0)
    omega
  rw [chunkList, if_neg hn]
  cases l with
  | nil => exact absurd rfl hne
  | cons c cs =>
    rw [show (c :: cs).length = cs.length + 1 from rfl, chunkGo,
        List.take_of_length_le hlen, List.drop_eq_nil_of_le hlen]
    cases cs <;> rfl

theorem foldl_append_data (xs : List String) (acc : String) :
    (List.foldl (fun r s => r ++ s) acc xs).data = acc.data ++ (xs.map String.data).flatten := by
  induction xs generalizing acc with
  | nil => simp
  | cons x rest ih =>
    rw [List.foldl_cons, ih, String.data_append, List.map_cons, List.flatten_cons,
        List.append_assoc]

theorem join_map_mk (ls : List (List Char)) :
    String.join (ls.map (fun l => String.mk l)) = String.mk ls.flatten := by
  apply String.ext
  show (List.foldl (fun r s => r ++ s) "" (ls.map (fun l => String.mk l))).data = ls.flatten
  rw [foldl_append_data]
  rw [List.map_map]
  have hcomp : (String.data ∘ fun l => String.mk l) = id := funext fun l => rfl
  rw [hcomp, List.map_id]
  rfl

theorem chunk_text_join (text : String) : String.join (chunk_text text) = text := by
  unfold chunk_text
  rw [join_map_mk, chunkList_flatten 5000 (by omega), mk_toList]

theorem chunk_text_le (text : String) (c : String) (hc : c ∈ chunk_text text) :
    c.length ≤ 5000 := by
  unfold chunk_text at hc
  rw [List.mem_map] at hc
  obtain ⟨l, hl, rfl⟩ := hc
  show l.length ≤ 5000
  exact chunkList_le 5000 text.toList l hl

theorem chunk_text_short (text : String) (hne : text ≠ "")
    (hlen : text.length ≤ 5000) : chunk_text text = [text] := by
  unfold chunk_text
  have h1 : text.toList ≠ [] := toList_ne_nil_of_ne_empty hne
  have h2 : text.toList.length ≤ 5000 := hlen
  rw [chunkList_short 5000 text.toList h1 h2, List.map_cons, List.map_nil, mk_toList]

theorem mapM_ok_of_all_ok (f : String → Except String String) (l : List String)
    (h : ∀ c ∈ l, ∃ v, f c = .ok v) : ∃ vs, l.mapM f = .ok vs := by
  induction l with
  | nil => exact ⟨[], rfl⟩
  | cons a rest ih =>
    obtain ⟨v, hv⟩ := h a (List.mem_cons_self a rest)
    obtain ⟨vs, hvs⟩ := ih (fun c hc => h c (List.mem_cons_of_mem _ hc))
    refine ⟨v :: vs, ?_⟩
    rw [List.mapM_cons, hv, hvs]
    rfl

theorem mapM_ok_map (f : String → Except String String) (g : String → String)
    (l : List String) (h : ∀ c ∈ l, f c = .ok (g c)) : l.mapM f = .ok (l.map g) := by
  induction l with
  | nil => rfl
  | cons a rest ih =>
    rw [List.mapM_cons, h a (List.mem_cons_self a rest),
        ih (fun c hc => h c (List.mem_cons_of_mem _ hc)), List.map_cons]
    rfl

/-!
## Lemmas about the translation boundary and call counting
-/

theorem translateChunk_ok_of_resp (post : String → PostResult) (c : String)
    (s : Nat) (r b : String) (hc : post c = .resp s r b) :
    ∃ v, translateChunk post c = .ok v := by
  unfold translateChunk
  split
  · exact ⟨_, rfl⟩
  · exact ⟨_, rfl⟩
  · rename_i m hm
    rw [hc] at hm
    exact absurd hm (by simp)

theorem translateChunk_resp200 (post : String → PostResult) (c : String)
    (r b : String) (hc : post c = .resp 200 r b) :
    translateChunk post c = .ok (pystrip b) := by
  unfold translateChunk
  rw [hc]

theorem translate_src_eq_tgt (models : List String) (post : String → PostResult)
    (text src : String) :
    LindatTranslator.translate models post text src src = .ok text := by
  unfold LindatTranslator.translate
  rw [if_pos rfl]

theorem translate_unsupported (models : List String) (post : String → PostResult)
    (text src tgt : String) (h1 : src ≠ tgt) (h2 : (src ++ "-" ++ tgt) ∉ models) :
    LindatTranslator.translate models post text src tgt
      = .ok ("[ERROR: Model " ++ (src ++ "-" ++ tgt) ++ " not supported]") := by
  unfold LindatTranslator.translate
  rw [if_neg h1, if_pos h2]

theorem translate_ok_of_resp (models : List String) (post : String → PostResult)
    (text src tgt : String) (hresp : ∀ c, ∃ s r b, post c = .resp s r b) :
    ∃ out, LindatTranslator.translate models post text src tgt = .ok out := by
  unfold LindatTranslator.translate
  by_cases h1 : src = tgt
  · rw [if_pos h1]
    exact ⟨text, rfl⟩
  · rw [if_neg h1]
    by_cases h2 : (src ++ "-" ++ tgt) ∉ models
    · rw [if_pos h2]
      exact ⟨_, rfl⟩
    · rw [if_neg h2]
      obtain ⟨vs, hvs⟩ := mapM_ok_of_all_ok (translateChunk post) (chunk_text text)
        (fun c _ => by
          obtain ⟨s, r, b, hc⟩ := hresp c
          exact translateChunk_ok_of_resp post c s r b hc)
      refine ⟨String.intercalate "\n" vs, ?_⟩
      show ((chunk_text text).mapM (translateChunk post)
          >>= fun parts => pure (String.intercalate "\n" parts)) = _
      rw [hvs]
      rfl

theorem translate_resp200 (models : List String) (post : String → PostResult)
    (text src tgt : String) (r b : String → String)
    (h1 : src ≠ tgt) (h2 : (src ++ "-" ++ tgt) ∈ models)
    (h : ∀ c, post c = .resp 200 (r c) (b c)) :
    LindatTranslator.translate models post text src tgt
      = .ok (String.intercalate "\n" ((chunk_text text).map (fun c => pystrip (b c)))) := by
  unfold LindatTranslator.translate
  rw [if_neg h1, if_neg (by simpa using h2)]
  have hmap := mapM_ok_map (translateChunk post) (fun c => pystrip (b c)) (chunk_text text)
    (fun c _ => translateChunk_resp200 post c (r c) (b c) (h c))
  show ((chunk_text text).mapM (translateChunk post)
      >>= fun parts => pure (String.intercalate "\n" parts)) = _
  rw [hmap]
  rfl

theorem count_filterMap_lineCall (lines : List (List SElem)) (s : String) :
    (lines.filterMap lineCall).count s
      = lines.countP (fun strs => lineCall strs == some s) := by
  induction lines with
  | nil => rfl
  | cons l rest ih =>
    rw [List.countP_cons, List.filterMap_cons]
    cases hl : lineCall l with
    | none =>
      dsimp only
      rw [ih]
      simp
    | some v =>
      dsimp only
      rw [List.count_cons, ih]
      have hsome : ((some v : Option String) == some s) = (v == s) := rfl
      rw [hsome]

theorem filterMap_lineCall_flatten (pages : List (List (List SElem))) :
    (pages.map (fun lines => lines.filterMap lineCall)).flatten
      = (pages.flatten).filterMap lineCall := by
  induction pages with
  | nil => rfl
  | cons p rest ih =>
    rw [List.map_cons, List.flatten_cons, List.flatten_cons, List.filterMap_append, ih]

/-!
## Lemmas about the recorded AMCR calls
-/

theorem translateAt_getElem?_ne (f : String → String) (d : List AElem)
    (i j : Nat) (h : j ≠ i) : (translateAt f d i)[j]? = d[j]? := by
  unfold translateAt
  cases d[i]? with
  | none => rfl
  | some e =>
    dsimp only
    cases e.text with
    | none => rfl
    | some t =>
      dsimp only
      by_cases hc : t ≠ "" ∧ pystrip t ≠ ""
      · rw [if_pos hc, List.getElem?_set_ne (fun hh => h hh.symm)]
      · rw [if_neg hc]

theorem translateAtC_step (f : String → String) (d : List AElem)
    (cs : List String) (i : Nat) :
    translateAtC f (d, cs) i = (translateAt f d i, cs ++ (amcrCall? d i).toList) := by
  unfold translateAtC translateAt amcrCall?
  cases d[i]? with
  | none => simp
  | some e =>
    dsimp only
    cases e.text with
    | none => simp
    | some t =>
      dsimp only
      by_cases hc : t ≠ "" ∧ pystrip t ≠ ""
      · rw [if_pos hc, if_pos hc, if_pos hc]
        rfl
      · rw [if_neg hc, if_neg hc, if_neg hc]
        simp

theorem amcrCall?_congr (d doc : List AElem) (i : Nat) (h : d[i]? = doc[i]?) :
    amcrCall? d i = amcrCall? doc i := by
  unfold amcrCall?
  rw [h]

theorem foldl_translateAtC_fst (f : String → String) (idxs : List Nat) :
    ∀ (d : List AElem) (cs : List String),
    (idxs.foldl (translateAtC f) (d, cs)).1 = idxs.foldl (translateAt f) d := by
  induction idxs with
  | nil => intro d cs; rfl
  | cons i is ih =>
    intro d cs
    rw [List.foldl_cons, List.foldl_cons, translateAtC_step]
    exact ih (translateAt f d i) (cs ++ (amcrCall? d i).toList)

theorem process_amcr_xml_calls_fst (eval : String → Option (List Nat))
    (f : String → String) (doc : List AElem) (xpaths : List String) :
    (process_amcr_xml_calls eval f doc xpaths).1
      = process_amcr_xml eval f doc xpaths := by
  unfold process_amcr_xml_calls process_amcr_xml
  suffices h : ∀ (st : List AElem × List String),
      (xpaths.foldl (amcrApplyXpathC eval f) st).1
        = xpaths.foldl (amcrApplyXpath eval f) st.1 by
    exact h (doc, [])
  induction xpaths with
  | nil => intro st; rfl
  | cons xp rest ih =>
    intro st
    rw [List.foldl_cons, List.foldl_cons, ih]
    congr 1
    unfold amcrApplyXpathC amcrApplyXpath
    cases eval xp with
    | none => rfl
    | some idxs =>
      dsimp only
      obtain ⟨d, cs⟩ := st
      exact foldl_translateAtC_fst f idxs d cs

theorem foldl_translateAtC_calls (f : String → String) (doc : List AElem) :
    ∀ (idxs : List Nat) (d : List AElem) (cs : List String),
    idxs.Nodup → (∀ i ∈ idxs, d[i]? = doc[i]?) →
    (idxs.foldl (translateAtC f) (d, cs)).2 = cs ++ idxs.filterMap (amcrCall? doc) := by
  intro idxs
  induction idxs with
  | nil =>
    intro d cs _ _
    simp
  | cons i is ih =>
    intro d cs hnd hag
    obtain ⟨hni, hnd2⟩ := List.nodup_cons.mp hnd
    rw [List.foldl_cons, translateAtC_step]
    have hagi : d[i]? = doc[i]? := hag i (List.mem_cons_self i is)
    have hag2 : ∀ j ∈ is, (translateAt f d i)[j]? = doc[j]? := by
      intro j hj
      have hji : j ≠ i := fun hh => hni (hh ▸ hj)
      rw [translateAt_getElem?_ne f d i j hji]
      exact hag j (List.mem_cons_of_mem _ hj)
    rw [ih (translateAt f d i) (cs ++ (amcrCall? d i).toList) hnd2 hag2,
        amcrCall?_congr d doc i hagi, List.filterMap_cons]
    cases amcrCall? doc i with
    | none => simp
    | some v => simp

theorem count_filterMap_amcrCall (doc : List AElem) (idxs : List Nat) (s : String) :
    (idxs.filterMap (amcrCall? doc)).count s
      = idxs.countP (fun i => amcrCall? doc i == some s) := by
  induction idxs with
  | nil => rfl
  | cons i is ih =>
    rw [List.countP_cons, List.filterMap_cons]
    cases hc : amcrCall? doc i with
    | none =>
      dsimp only
      rw [ih]
      simp
    | some v =>
      dsimp only
      rw [List.count_cons, ih]
      have hsome : ((some v : Option String) == some s) = (v == s) := rfl
      rw [hsome]

/-!
# The claims
-/

/-- C1 (Redistribution conservation): for every translated text `t`
distributed by `process_alto_xml` across `n ≥ 1` String elements, the in-order
concatenation of the assigned word-slices equals `t`'s whitespace-split word
sequence exactly, and the assigned word counts sum to the total word count of
`t`. -/
theorem claim_C1_redistribution_conservation (t : String) (n : Nat) (hn : 1 ≤ n) :
    (distributeWords (pysplit t) n).flatten = pysplit t
      ∧ ((distributeWords (pysplit t) n).map List.length).sum = (pysplit t).length := by
  refine ⟨distributeWords_flatten _ _ hn, ?_⟩
  rw [← List.length_flatten, distributeWords_flatten _ _ hn]

/-- Witness for C1 at the text "dobry den svete" split over 2 elements. -/
theorem claim_C1_witness :
    (distributeWords (pysplit "dobry den svete") 2).flatten = pysplit "dobry den svete"
      ∧ ((distributeWords (pysplit "dobry den svete") 2).map List.length).sum
          = (pysplit "dobry den svete").length :=
  claim_C1_redistribution_conservation "dobry den svete" 2 (by decide)

/-- C2 (Remainder left-bias): when `process_alto_xml` splits a translated text
with `W` words across the `N` String elements of a line, element `i` receives
`W / N + 1` words when `i < W % N` and `W / N` words otherwise; the elements
are all kept (`processLine` preserves the count), each element's CONTENT
becomes the joined assigned slice, and an element assigned zero words gets
CONTENT set to the empty string rather than being removed. -/
theorem claim_C2_remainder_left_bias (f : String → String) (strs : List SElem)
    (h1 : strs ≠ []) (h2 : lineText strs ≠ "") (i : Nat) (hi : i < strs.length) :
    ((distributeWords (pysplit (f (lineText strs))) strs.length).getD i []).length
        = (pysplit (f (lineText strs))).length / strs.length
          + (if i < (pysplit (f (lineText strs))).length % strs.length then 1 else 0)
    ∧ (processLine f strs).length = strs.length
    ∧ getAttr ((processLine f strs).getD i ⟨[]⟩).attrs "CONTENT"
        = some (joinWords ((distributeWords (pysplit (f (lineText strs))) strs.length).getD i []))
    ∧ ((distributeWords (pysplit (f (lineText strs))) strs.length).getD i [] = [] →
        getAttr ((processLine f strs).getD i ⟨[]⟩).attrs "CONTENT" = some "") := by
  have hn : 1 ≤ strs.length := by
    cases strs with
    | nil => exact absurd rfl h1
    | cons a l => simp
  have hset : getAttr ((processLine f strs).getD i ⟨[]⟩).attrs "CONTENT"
      = some (joinWords ((distributeWords (pysplit (f (lineText strs))) strs.length).getD i [])) := by
    rw [processLine_getD f strs h1 h2 i hi]
    exact getAttr_setAttr_self _ _ _
  refine ⟨distributeWords_getD_length _ _ _ hn hi, processLine_length f strs, hset, ?_⟩
  intro he
  rw [hset, he, joinWords_nil]

/-- Witness for C2: a 2-element line whose translation has 5 words; element 0
receives 3 of them. -/
theorem claim_C2_witness :
    getAttr ((processLine (fun _ => "a b c d e")
        [(⟨[("CONTENT", "x")]⟩ : SElem), ⟨[("CONTENT", "y")]⟩]).getD 0 ⟨[]⟩).attrs "CONTENT"
      = some "a b c" := by
  have h := claim_C2_remainder_left_bias (fun _ => "a b c d e")
      [(⟨[("CONTENT", "x")]⟩ : SElem), ⟨[("CONTENT", "y")]⟩]
      (by decide) (by decide) 0 (by decide)
  rw [h.2.2.1]
  decide

/-- Counterexample to C3 as stated: with source language equal to target
language the translator is the identity, yet `process_alto_xml`'s
redistribution still rewrites CONTENT attributes — a line holding
`"Hello world"` next to an empty CONTENT is rewritten to `"Hello"` / `"world"`,
so the output is not byte-identical to the input. -/
theorem claim_C3_counterexample :
    processLine (fun t => t) [(⟨[("CONTENT", "Hello world")]⟩ : SElem), ⟨[("CONTENT", "")]⟩]
        = [(⟨[("CONTENT", "Hello")]⟩ : SElem), ⟨[("CONTENT", "world")]⟩]
      ∧ processLine (fun t => t) [(⟨[("CONTENT", "Hello world")]⟩ : SElem), ⟨[("CONTENT", "")]⟩]
          ≠ [(⟨[("CONTENT", "Hello world")]⟩ : SElem), ⟨[("CONTENT", "")]⟩] := by
  constructor
  · decide
  · decide

/-- C3 (amended): when the source language equals the target language,
`translate` returns every text unchanged and AMCR processing leaves the
document exactly as it was; ALTO redistribution still runs, and a line is left
unchanged provided every String's CONTENT is a single non-blank,
whitespace-free token (otherwise CONTENTs may be redistributed, as the
counterexample shows). -/
theorem claim_C3_amended_passthrough :
    (∀ (models : List String) (post : String → PostResult) (text src : String),
        LindatTranslator.translate models post text src src = .ok text)
    ∧ (∀ (eval : String → Option (List Nat)) (doc : List AElem) (xpaths : List String),
        process_amcr_xml eval (fun t => t) doc xpaths = doc)
    ∧ (∀ strs : List SElem,
        (∀ s ∈ strs, ∃ w, getAttr s.attrs "CONTENT" = some w ∧ w ≠ ""
            ∧ ∀ c ∈ w.toList, ¬ isWs c) →
        processLine (fun t => t) strs = strs) :=
  ⟨translate_src_eq_tgt, process_amcr_xml_id, processLine_id_singleTokens⟩

/-- Witness for C3 (amended): a line of single-token CONTENTs passes through
unchanged under the identity translation. -/
theorem claim_C3_witness :
    processLine (fun t => t) [(⟨[("CONTENT", "Ahoj")]⟩ : SElem), ⟨[("CONTENT", "svete")]⟩]
      = [(⟨[("CONTENT", "Ahoj")]⟩ : SElem), ⟨[("CONTENT", "svete")]⟩] := by
  refine claim_C3_amended_passthrough.2.2 _ ?_
  intro s hs
  rcases List.mem_cons.mp hs with rfl | hs2
  · exact ⟨"Ahoj", rfl, by decide, by decide⟩
  · rcases List.mem_cons.mp hs2 with rfl | hs3
    · exact ⟨"svete", rfl, by decide, by decide⟩
    · simp at hs3

/-- Counterexample to C4 as stated: `process_alto_xml` performs no
deduplication — a document with two lines both reading "ahoj" submits "ahoj"
to the translator twice, not once. -/
theorem claim_C4_counterexample :
    altoCalls [[[(⟨[("CONTENT", "ahoj")]⟩ : SElem)], [⟨[("CONTENT", "ahoj")]⟩]]]
        = ["ahoj", "ahoj"]
      ∧ (altoCalls [[[(⟨[("CONTENT", "ahoj")]⟩ : SElem)], [⟨[("CONTENT", "ahoj")]⟩]]]).count "ahoj"
          = 2 := by
  constructor
  · decide
  · decide

/-- C4 (amended): the translator is invoked exactly once per qualifying text
unit, with no deduplication in either mode, so a text shared by `k` units is
submitted `k` times.  ALTO mode: one call per non-blank line, independent of
the translator, and the number of calls carrying the text `s` equals the
number of lines whose reconstructed line text is `s`.  AMCR mode: the
call-recording run rewrites the document exactly as `process_amcr_xml` does,
and for one expression whose matches are distinct elements the visits submit,
in order, exactly the truthy element texts at visit time, so the number of
calls carrying `s` equals the number of matched elements whose text is `s`. -/
theorem claim_C4_amended_per_unit :
    (∀ (f : String → String) (pages : List (List (List SElem))) (s : String),
        (process_alto_xml f pages).2 = altoCalls pages
        ∧ (altoCalls pages).count s
            = (pages.flatten).countP (fun strs => lineCall strs == some s))
    ∧ (∀ (eval : String → Option (List Nat)) (f : String → String)
        (doc : List AElem) (xpaths : List String),
        (process_amcr_xml_calls eval f doc xpaths).1
          = process_amcr_xml eval f doc xpaths)
    ∧ (∀ (eval : String → Option (List Nat)) (f : String → String)
        (doc : List AElem) (xp : String) (idxs : List Nat) (s : String),
        eval xp = some idxs → idxs.Nodup →
        (amcrApplyXpathC eval f (doc, []) xp).2 = idxs.filterMap (amcrCall? doc)
        ∧ ((amcrApplyXpathC eval f (doc, []) xp).2).count s
            = idxs.countP (fun i => amcrCall? doc i == some s)) := by
  refine ⟨?_, process_amcr_xml_calls_fst, ?_⟩
  · intro f pages s
    refine ⟨rfl, ?_⟩
    show ((pages.map (fun lines => lines.filterMap lineCall)).flatten).count s = _
    rw [filterMap_lineCall_flatten, count_filterMap_lineCall]
  · intro eval f doc xp idxs s heval hnd
    have hcalls : (amcrApplyXpathC eval f (doc, []) xp).2
        = idxs.filterMap (amcrCall? doc) := by
      unfold amcrApplyXpathC
      rw [heval]
      dsimp only
      rw [foldl_translateAtC_calls f doc idxs doc [] hnd (fun i _ => rfl)]
      rw [List.nil_append]
    refine ⟨hcalls, ?_⟩
    rw [hcalls, count_filterMap_amcrCall]

/-- Witness for C4 (amended): one expression matching two distinct elements
both reading "ahoj" records two calls carrying "ahoj". -/
theorem claim_C4_witness :
    ((amcrApplyXpathC (fun _ => some [0, 1]) (fun t => t ++ "!")
        ([(⟨[], some "ahoj"⟩ : AElem), ⟨[], some "ahoj"⟩], []) "x").2).count "ahoj" = 2 := by
  have h := (claim_C4_amended_per_unit.2.2 (fun _ => some [0, 1]) (fun t => t ++ "!")
      [(⟨[], some "ahoj"⟩ : AElem), ⟨[], some "ahoj"⟩] "x" [0, 1] "ahoj"
      rfl (by decide)).2
  rw [h]
  decide

/-- Counterexample to C5 as stated: a whitespace-only (blank) text with
`src ≠ tgt` is submitted to the service like any other and returns the
response body, not the input; and a transport exception propagates out of
`translate` uncaught, so the affected document is aborted, not written. -/
theorem claim_C5_counterexample :
    LindatTranslator.translate ["cs-en"] (fun _ => .resp 200 "OK" "X") " " "cs" "en"
        = .ok "X"
      ∧ (Except.ok "X" : Except String String) ≠ .ok " "
      ∧ LindatTranslator.translate ["cs-en"] (fun _ => .exn "connection error")
          "ahoj" "cs" "en" = .error "connection error" := by
  refine ⟨rfl, ?_, rfl⟩
  intro h
  injection h with h
  exact absurd h (by decide)

/-- C5 (amended): `translate` returns the input unchanged when
`src_lang = tgt_lang`; it returns the `[ERROR: Model ...]` sentinel on an
unsupported language pair; and whenever the transport always yields an HTTP
response (any status code) it returns normally, never raising — failed chunks
become `[Translation Failed: ...]` sentinels inside the result.  Blank text is
not special-cased (whitespace-only text is submitted), and a transport
exception does propagate, as the counterexample shows. -/
theorem claim_C5_amended_boundary (models : List String)
    (post : String → PostResult) (text src tgt : String) :
    (src = tgt → LindatTranslator.translate models post text src tgt = .ok text)
    ∧ (src ≠ tgt → (src ++ "-" ++ tgt) ∉ models →
        LindatTranslator.translate models post text src tgt
          = .ok ("[ERROR: Model " ++ (src ++ "-" ++ tgt) ++ " not supported]"))
    ∧ ((∀ c, ∃ s r b, post c = .resp s r b) →
        ∃ out, LindatTranslator.translate models post text src tgt = .ok out) := by
  refine ⟨?_, ?_, ?_⟩
  · intro h
    subst h
    exact translate_src_eq_tgt models post text src
  · intro h1 h2
    exact translate_unsupported models post text src tgt h1 h2
  · intro hresp
    exact translate_ok_of_resp models post text src tgt hresp

/-- Witness for C5 (amended): identity on equal languages, the unsupported
sentinel, and a no-raise run against a 404-returning transport. -/
theorem claim_C5_witness :
    LindatTranslator.translate ["cs-en"] (fun _ => .resp 404 "Not Found" "") "ahoj" "en" "en"
        = .ok "ahoj"
      ∧ LindatTranslator.translate ["cs-en"] (fun _ => .resp 404 "Not Found" "") "ahoj" "fr" "de"
          = .ok "[ERROR: Model fr-de not supported]"
      ∧ ∃ out, LindatTranslator.translate ["cs-en"] (fun _ => .resp 404 "Not Found" "")
          "ahoj" "cs" "en" = .ok out := by
  refine ⟨?_, ?_, ?_⟩
  · exact (claim_C5_amended_boundary ["cs-en"] (fun _ => .resp 404 "Not Found" "")
      "ahoj" "en" "en").1 rfl
  · exact (claim_C5_amended_boundary ["cs-en"] (fun _ => .resp 404 "Not Found" "")
      "ahoj" "fr" "de").2.1 (by decide) (by decide)
  · exact (claim_C5_amended_boundary ["cs-en"] (fun _ => .resp 404 "Not Found" "")
      "ahoj" "cs" "en").2.2 (fun c => ⟨404, "Not Found", "", rfl⟩)

theorem processLine_getAttr_ne (f : String → String) (strs : List SElem)
    (i : Nat) (k : String) (hk : k ≠ "CONTENT") :
    getAttr ((processLine f strs).getD i ⟨[]⟩).attrs k
      = getAttr (strs.getD i ⟨[]⟩).attrs k := by
  by_cases h1 : strs = []
  · unfold processLine
    rw [if_pos h1]
  · by_cases h2 : lineText strs = ""
    · unfold processLine
      rw [if_neg h1, if_pos h2]
    · by_cases hi : i < strs.length
      · rw [processLine_getD f strs h1 h2 i hi]
        show getAttr (setAttr _ "CONTENT" _) k = _
        exact getAttr_setAttr_ne _ _ _ _ hk
      · rw [List.getD_eq_getElem?_getD,
            List.getElem?_eq_none (by rw [processLine_length]; omega),
            List.getD_eq_getElem?_getD,
            List.getElem?_eq_none (by omega : strs.length ≤ i)]

/-- C6 (Frame effect): the ALTO rewrite changes only the CONTENT attribute —
the number and order of a line's String elements is preserved and every other
attribute of every element keeps its value — and the AMCR rewrite changes only
the elements' inner text: element count and every attribute list are
unchanged. -/
theorem claim_C6_frame_effect (f : String → String) :
    (∀ strs : List SElem, (processLine f strs).length = strs.length)
    ∧ (∀ (strs : List SElem) (i : Nat) (k : String), k ≠ "CONTENT" →
        getAttr ((processLine f strs).getD i ⟨[]⟩).attrs k
          = getAttr (strs.getD i ⟨[]⟩).attrs k)
    ∧ (∀ (eval : String → Option (List Nat)) (doc : List AElem) (xpaths : List String),
        (process_amcr_xml eval f doc xpaths).length = doc.length)
    ∧ (∀ (eval : String → Option (List Nat)) (doc : List AElem) (xpaths : List String)
        (j : Nat),
        ((process_amcr_xml eval f doc xpaths).getD j ⟨[], none⟩).attrs
          = (doc.getD j ⟨[], none⟩).attrs) :=
  ⟨processLine_length f,
   fun strs i k hk => processLine_getAttr_ne f strs i k hk,
   fun eval doc xpaths => process_amcr_xml_length eval f doc xpaths,
   fun eval doc xpaths j => process_amcr_xml_attrs eval f doc xpaths j⟩

/-- Witness for C6: in a rewritten line the HPOS attribute of element 0 is
untouched. -/
theorem claim_C6_witness :
    getAttr ((processLine (fun _ => "x y")
        [(⟨[("CONTENT", "ab"), ("HPOS", "10")]⟩ : SElem), ⟨[("CONTENT", "cd")]⟩]).getD 0 ⟨[]⟩).attrs
        "HPOS"
      = getAttr (([(⟨[("CONTENT", "ab"), ("HPOS", "10")]⟩ : SElem),
          ⟨[("CONTENT", "cd")]⟩].getD 0 ⟨[]⟩)).attrs "HPOS" :=
  (claim_C6_frame_effect (fun _ => "x y")).2.1
    [(⟨[("CONTENT", "ab"), ("HPOS", "10")]⟩ : SElem), ⟨[("CONTENT", "cd")]⟩]
    0 "HPOS" (by decide)

/-- Counterexample to C7 as stated: with no namespace declared on the root,
`process_amcr_xml` passes an empty namespace mapping to the XPath engine — no
"known default URI" is ever substituted (and the mapping is computed from the
root element's declarations alone, not from the whole tree). -/
theorem claim_C7_counterexample : buildXpathNs [] = [] := by decide

/-- C7 (amended): the XPath namespace mapping is built from the root element's
namespace declarations only: `amcr` is bound to the last root-declared
non-empty URI containing the substring "amcr"; failing that, to the root's
default (unprefixed) namespace when one exists; and when neither exists the
mapping is empty — no fixed default URI is used. -/
theorem claim_C7_amended_ns (nsmap : List (Option String × String)) :
    ((nsmap.filter (fun p => p.2 ≠ "" && containsAmcr p.2)).getLast? = none →
      (nsmap.find? (fun p => p.1 == none)) = none →
      buildXpathNs nsmap = [])
    ∧ (∀ q, (nsmap.filter (fun p => p.2 ≠ "" && containsAmcr p.2)).getLast? = none →
        (nsmap.find? (fun p => p.1 == none)) = some q →
        buildXpathNs nsmap = [("amcr", q.2)])
    ∧ (∀ p, (nsmap.filter (fun p => p.2 ≠ "" && containsAmcr p.2)).getLast? = some p →
        buildXpathNs nsmap = [("amcr", p.2)]
        ∧ p ∈ nsmap ∧ p.2 ≠ "" ∧ containsAmcr p.2) := by
  refine ⟨?_, ?_, ?_⟩
  · intro hamcr hdef
    unfold buildXpathNs
    rw [hamcr, hdef]
    rfl
  · intro q hamcr hdef
    unfold buildXpathNs
    rw [hamcr, hdef]
    rfl
  · intro p hp
    have hmemf : p ∈ nsmap.filter (fun p => p.2 ≠ "" && containsAmcr p.2) :=
      List.mem_of_getLast?_eq_some hp
    have hmem := List.mem_filter.mp hmemf
    constructor
    · unfold buildXpathNs
      rw [hp]
    · refine ⟨hmem.1, ?_, ?_⟩
      · have := hmem.2
        simp only [Bool.and_eq_true, decide_eq_true_eq] at this
        exact this.1
      · have := hmem.2
        simp only [Bool.and_eq_true] at this
        exact this.2

/-- Witness for C7 (amended): an `amcr`-containing URI on the root wins over
the default namespace. -/
theorem claim_C7_witness :
    buildXpathNs [(none, "http://plain"), (some "a", "http://x/amcr/v1")]
      = [("amcr", "http://x/amcr/v1")] :=
  ((claim_C7_amended_ns [(none, "http://plain"), (some "a", "http://x/amcr/v1")]).2.2
    (some "a", "http://x/amcr/v1") (by decide)).1

/-- C8 (XPath expression failure locality): an XPath expression on which the
engine raises an evaluation error is skipped — the processed document is
exactly the one obtained from the remaining expressions, which are all still
evaluated, and the (total) processing still produces the document that is
written out. -/
theorem claim_C8_xpath_locality (eval : String → Option (List Nat))
    (f : String → String) (doc : List AElem) (xs ys : List String) (bad : String)
    (hbad : eval bad = none) :
    process_amcr_xml eval f doc (xs ++ bad :: ys)
      = process_amcr_xml eval f doc (xs ++ ys) := by
  unfold process_amcr_xml
  rw [List.foldl_append, List.foldl_append, List.foldl_cons]
  have hskip : amcrApplyXpath eval f (List.foldl (amcrApplyXpath eval f) doc xs) bad
      = List.foldl (amcrApplyXpath eval f) doc xs := by
    unfold amcrApplyXpath
    rw [hbad]
  rw [hskip]

/-- Witness for C8: a failing first expression leaves the result of the
remaining good expression intact. -/
theorem claim_C8_witness :
    process_amcr_xml (fun xp => if xp = "bad" then none else some [0])
        (fun t => t ++ "!") [⟨[], some "hi"⟩] ["bad", "ok"]
      = process_amcr_xml (fun xp => if xp = "bad" then none else some [0])
          (fun t => t ++ "!") [⟨[], some "hi"⟩] ["ok"] :=
  claim_C8_xpath_locality (fun xp => if xp = "bad" then none else some [0])
    (fun t => t ++ "!") [⟨[], some "hi"⟩] [] ["ok"] "bad" (by decide)

/-- Counterexample to C9 as stated: the empty text has length at most 5000 yet
is chunked into zero chunks, not exactly one. -/
theorem claim_C9_counterexample :
    ("" : String).length ≤ 5000 ∧ chunk_text "" = [] ∧ (chunk_text "").length ≠ 1 := by
  refine ⟨by decide, by decide, by decide⟩

/-- C9 (amended): every chunk produced by `_chunk_text` has length at most
5000, and the chunks concatenate in order to exactly the input; a *non-empty*
text of at most 5000 characters is sent as exactly one chunk (the empty text
yields no chunks at all); and `translate` joins the per-chunk results with
newline characters, so a long text acquires newlines that were not in the
source. -/
theorem claim_C9_amended_chunking (text : String) :
    (∀ c ∈ chunk_text text, c.length ≤ 5000)
    ∧ String.join (chunk_text text) = text
    ∧ (text ≠ "" → text.length ≤ 5000 → chunk_text text = [text])
    ∧ (∀ (models : List String) (post : String → PostResult) (src tgt : String)
        (r b : String → String), src ≠ tgt → (src ++ "-" ++ tgt) ∈ models →
        (∀ c, post c = .resp 200 (r c) (b c)) →
        LindatTranslator.translate models post text src tgt
          = .ok (String.intercalate "\n" ((chunk_text text).map (fun c => pystrip (b c))))) := by
  refine ⟨?_, chunk_text_join text, ?_, ?_⟩
  · intro c hc
    exact chunk_text_le text c hc
  · intro hne hlen
    exact chunk_text_short text hne hlen
  · intro models post src tgt r b h1 h2 h
    exact translate_resp200 models post text src tgt r b h1 h2 h

/-- Witness for C9 (amended): a four-character text is one chunk, and two
chunk results are joined with a newline by a transport echoing "T". -/
theorem claim_C9_witness :
    chunk_text "ahoj" = ["ahoj"]
      ∧ LindatTranslator.translate ["cs-en"] (fun _ => .resp 200 "OK" "T") "ahoj" "cs" "en"
          = .ok (String.intercalate "\n"
              ((chunk_text "ahoj").map (fun c => pystrip ((fun _ => "T") c)))) := by
  refine ⟨?_, ?_⟩
  · exact (claim_C9_amended_chunking "ahoj").2.2.1 (by decide) (by decide)
  · exact (claim_C9_amended_chunking "ahoj").2.2.2 ["cs-en"]
      (fun _ => .resp 200 "OK" "T") "cs" "en" (fun _ => "OK") (fun _ => "T")
      (by decide) (by decide) (fun c => rfl)

/-- C10 (ALTO box extraction invariant): `parse_alto_xml` returns words and
boxes lists of equal length; each retained String contributes the box
`[x, y, x + w, y + h]` built from its geometry; a String whose CONTENT is
missing or empty or whose HPOS/VPOS/WIDTH/HEIGHT is missing or non-numeric is
skipped and contributes to neither list; a parse failure (or a missing Page)
yields the empty result `([], [], (0, 0))` rather than raising. -/
theorem claim_C10_box_extraction :
    parse_alto_xml none = ([], [], (0, 0))
    ∧ (∀ od, (parse_alto_xml od).1.length = (parse_alto_xml od).2.1.length)
    ∧ (∀ (e : RawElem) (c : String) (x y w h : Int),
        e.tag = "String" → rawGet e "CONTENT" = some c → c ≠ "" →
        numAttr e "HPOS" = some x → numAttr e "VPOS" = some y →
        numAttr e "WIDTH" = some w → numAttr e "HEIGHT" = some h →
        extractString e = some (c, [x, y, x + w, y + h]))
    ∧ (∀ e : RawElem,
        (e.tag ≠ "String" ∨ rawGet e "CONTENT" = none ∨ rawGet e "CONTENT" = some ""
          ∨ numAttr e "HPOS" = none ∨ numAttr e "VPOS" = none
          ∨ numAttr e "WIDTH" = none ∨ numAttr e "HEIGHT" = none) →
        extractString e = none)
    ∧ (∀ doc : AltoDoc, doc.page = none → parse_alto_xml (some doc) = ([], [], (0, 0))) := by
  refine ⟨rfl, ?_, ?_, ?_, ?_⟩
  · intro od
    cases od with
    | none => rfl
    | some doc =>
      unfold parse_alto_xml
      dsimp only
      cases doc.page with
      | none => rfl
      | some page =>
        dsimp only
        cases pageDim page "WIDTH" with
        | none => rfl
        | some w =>
          cases pageDim page "HEIGHT" with
          | none => rfl
          | some h =>
            dsimp only
            rw [List.length_map, List.length_map]
  · intro e c x y w h htag hc hcne hx hy hw hh
    unfold extractString
    rw [if_neg (by simp [htag]), hc]
    dsimp only
    rw [if_neg hcne, hx, hy, hw, hh]
  · intro e hdis
    unfold extractString
    by_cases htag : e.tag ≠ "String"
    · rw [if_pos htag]
    · rw [if_neg htag]
      push_neg at htag
      cases hc : rawGet e "CONTENT" with
      | none => rfl
      | some c =>
        dsimp only
        by_cases hcne : c = ""
        · rw [if_pos hcne]
        · rw [if_neg hcne]
          rcases hdis with h | h | h | h | h | h | h
          · exact absurd htag h
          · rw [hc] at h
            exact absurd h (by simp)
          · rw [hc] at h
            injection h with h
            exact absurd h hcne
          · rw [h]
          · rw [h]
            cases numAttr e "HPOS" <;> cases numAttr e "WIDTH" <;>
              cases numAttr e "HEIGHT" <;> rfl
          · rw [h]
            cases numAttr e "HPOS" <;> cases numAttr e "VPOS" <;>
              cases numAttr e "HEIGHT" <;> rfl
          · rw [h]
            cases numAttr e "HPOS" <;> cases numAttr e "VPOS" <;>
              cases numAttr e "WIDTH" <;> rfl
  · intro doc hpage
    unfold parse_alto_xml
    dsimp only
    rw [hpage]

/-- Witness for C10: a concrete String element with geometry 10/20/30/40
yields the box `[10, 20, 40, 60]`, and a parse failure yields the empty
result. -/
theorem claim_C10_witness :
    extractString ⟨"String", [("CONTENT", "ahoj"), ("HPOS", "10"), ("VPOS", "20"),
        ("WIDTH", "30"), ("HEIGHT", "40")]⟩
      = some ("ahoj", [10, 20, 10 + 30, 20 + 40]) :=
  claim_C10_box_extraction.2.2.1
    ⟨"String", [("CONTENT", "ahoj"), ("HPOS", "10"), ("VPOS", "20"),
      ("WIDTH", "30"), ("HEIGHT", "40")]⟩
    "ahoj" 10 20 30 40 rfl (by decide) (by decide) (by decide) (by decide)
    (by decide) (by decide)
